import Mathlib

/-!
Verification development for the unused-query cleanup tool
(scripts/cleanup-unused-queries.py).

The Python source is shallowly embedded below.  File contents are Lean
Strings; the regular-expression scans of the source are implemented as
deterministic matchers over lists of characters (every regex in the
source is backtracking-free, so a single left-to-right greedy pass is
exact).  The character-class model covers the ASCII fragment of
Python's str/re semantics, which is the alphabet of the scanned files.

Directory traversal, command-line handling and report printing are the
out-of-scope collaborators of the spec; the embedding takes the list of
consumer-file texts and the optional barrel (index) file text directly.
-/

namespace Grip

/-- Opening curly brace character (written via its code point). -/
def lbrace : Char := Char.ofNat 123

/-- Closing curly brace character (written via its code point). -/
def rbrace : Char := Char.ofNat 125

/-- Single-quote character. -/
def squote : Char := Char.ofNat 39

/-- ASCII model of the regex class backslash-w: letters, digits, underscore. -/
def isWordChar (c : Char) : Bool := c.isAlphanum || c == '_'

/-- ASCII model of the regex class backslash-s and of str.strip's whitespace. -/
def isSpaceChar (c : Char) : Bool :=
  c == ' ' || c == '\t' || c == '\n' || c == '\r' || c == Char.ofNat 11 || c == Char.ofNat 12

/-- Match a literal character sequence at the head of the input,
returning the remainder on success. -/
def dropLit : List Char → List Char → Option (List Char)
  | [], cs => some cs
  | _ :: _, [] => none
  | p :: ps, c :: cs => if c == p then dropLit ps cs else none

/-- Greedy match of at least one character of a class, returning the
matched run and the remainder (regex +). -/
def take1Class (p : Char → Bool) (cs : List Char) : Option (List Char × List Char) :=
  match cs.takeWhile p with
  | [] => none
  | t => some (t, cs.dropWhile p)

/-- Quote characters accepted by the import-path regexes. -/
def isQuote (c : Char) : Bool := c == squote || c == '"'

/-- Python str.strip (ASCII whitespace model). -/
def pyStrip (s : String) : String :=
  String.mk (((s.toList.dropWhile isSpaceChar).reverse.dropWhile isSpaceChar).reverse)

/-- Python str.startswith. -/
def pyStartsWith (s pat : String) : Bool :=
  pat.toList.isPrefixOf s.toList

/-- Splitting scan: each non-overlapping occurrence of the (nonempty)
separator, left to right, ends the current piece.  The fuel is at least
the input length, so it never runs out. -/
def splitFuel (sep : List Char) : Nat → List Char → List Char → List (List Char)
  | 0, cs, acc => [acc.reverse ++ cs]
  | _ + 1, [], acc => [acc.reverse]
  | fuel + 1, c :: cs, acc =>
    if sep.isPrefixOf (c :: cs) then
      acc.reverse :: splitFuel sep fuel ((c :: cs).drop sep.length) []
    else
      splitFuel sep fuel cs (c :: acc)

/-- Python str.split with an explicit nonempty separator. -/
def pySplitOn (s sep : String) : List String :=
  (splitFuel sep.toList s.toList.length s.toList []).map String.mk

/-- Python str.join with the pieces as the final argument. -/
def pyJoin (sep : String) : List String → String
  | [] => ""
  | [a] => a
  | a :: rest => a ++ sep ++ pyJoin sep rest

/-- Whether pat occurs as a contiguous substring (Python's in operator). -/
def containsSubL (pat : List Char) : List Char → Bool
  | [] => pat.isEmpty
  | c :: cs => pat.isPrefixOf (c :: cs) || containsSubL pat cs

/-- String-level substring containment. -/
def containsSub (s pat : String) : Bool := containsSubL pat.toList s.toList

/-- Word-boundary test of the regex anchor backslash-b at a position whose
preceding character is prev (none at start of string) and whose current
character is c. -/
def wordB (prev : Option Char) (c : Char) : Bool :=
  match prev with
  | none => isWordChar c
  | some p => isWordChar p != isWordChar c

/-- After the matched name, the call regex requires optional whitespace and
an opening parenthesis. -/
def afterCall (cs : List Char) : Bool :=
  match cs.dropWhile isSpaceChar with
  | c :: _ => c == '('
  | [] => false

/-- Does the call pattern (word boundary, the name, optional whitespace,
an opening parenthesis) match at this position, given the previous character? -/
def callAt (f : List Char) (prev : Option Char) (cs : List Char) : Bool :=
  match f, cs with
  | [], _ => false
  | _ :: _, [] => false
  | fc :: _, c :: _ =>
    fc == c && wordB prev c && f.isPrefixOf cs && afterCall (cs.drop f.length)

/-- Scan every position of the content for the call pattern. -/
def calledInGo (f : List Char) : Option Char → List Char → Bool
  | _, [] => false
  | prev, c :: cs => callAt f prev (c :: cs) || calledInGo f (some c) cs

/-- Model of re.search applied to the pattern built in the source:
word boundary, the (escaped) function name, optional whitespace, an
opening parenthesis. -/
def calledIn (f : String) (content : String) : Bool :=
  calledInGo f.toList none content.toList

/-- Match the brace-delimited import group: optional whitespace, an opening
brace, at least one non-closing-brace character (the capture), a closing
brace.  Returns the capture and the remainder. -/
def matchBraceGroup (cs : List Char) : Option (String × List Char) :=
  match cs.dropWhile isSpaceChar with
  | c :: cs2 =>
    if c == lbrace then
      match cs2.takeWhile (fun d => d != rbrace) with
      | [] => none
      | grp =>
        match cs2.dropWhile (fun d => d != rbrace) with
        | _ :: cs3 => some (String.mk grp, cs3)
        | [] => none
    else none
  | [] => none

/-- Match optional whitespace, the literal from, optional whitespace and an
opening quote; returns the remainder after the quote. -/
def matchFromPath (cs : List Char) : Option (List Char) :=
  (dropLit "from".toList (cs.dropWhile isSpaceChar)).bind fun cs2 =>
    match cs2.dropWhile isSpaceChar with
    | c :: cs3 => if isQuote c then some cs3 else none
    | [] => none

/-- Match a module name (at least one word character or hyphen) followed by a
closing quote; returns the captured module and the remainder. -/
def matchModTail (cs : List Char) : Option (String × List Char) :=
  match cs.takeWhile (fun c => isWordChar c || c == '-') with
  | [] => none
  | m =>
    match cs.dropWhile (fun c => isWordChar c || c == '-') with
    | c :: cs2 => if isQuote c then some (String.mk m, cs2) else none
    | [] => none

/-- One attempted match of the static-import regex of the source at the
current position: import { funcs } from quote @/db/queries/ module quote.
Returns ((captured funcs, captured module), remainder). -/
def matchStaticAt (cs : List Char) : Option ((String × String) × List Char) :=
  (dropLit "import".toList cs).bind fun cs1 =>
  (matchBraceGroup cs1).bind fun gm =>
  (matchFromPath gm.2).bind fun cs3 =>
  (dropLit "@/db/queries/".toList cs3).bind fun cs4 =>
  (matchModTail cs4).map fun mr => ((gm.1, mr.1), mr.2)

/-- One attempted match of the index-import regex of the source, which is
the shape: import { funcs } from quote @/db/queries quote.  Returns the
captured funcs group and the remainder. -/
def matchIndexAt (cs : List Char) : Option (String × List Char) :=
  (dropLit "import".toList cs).bind fun cs1 =>
  (matchBraceGroup cs1).bind fun gm =>
  (matchFromPath gm.2).bind fun cs3 =>
  (dropLit "@/db/queries".toList cs3).bind fun cs4 =>
    match cs4 with
    | c :: cs5 => if isQuote c then some (gm.1, cs5) else none
    | [] => none

/-- One attempted match of the barrel re-export regex of the source:
export { funcs } from quote . optional-slash module quote. -/
def matchBarrelAt (cs : List Char) : Option ((String × String) × List Char) :=
  (dropLit "export".toList cs).bind fun cs1 =>
  (matchBraceGroup cs1).bind fun gm =>
  (matchFromPath gm.2).bind fun cs3 =>
    match cs3 with
    | c :: cs4 =>
      if c == '.' then
        let cs5 := match cs4 with
          | d :: cs4' => if d == '/' then cs4' else cs4
          | [] => cs4
        (matchModTail cs5).map fun mr => ((gm.1, mr.1), mr.2)
      else none
    | [] => none

/-- One attempted match of the dynamic-import regex of the source:
brace funcs brace = await import ( quote @/db/queries/ module quote. -/
def matchDynAt (cs : List Char) : Option ((String × String) × List Char) :=
  match cs with
  | c :: cs1 =>
    if c == lbrace then
      match cs1.takeWhile (fun d => isWordChar d || isSpaceChar d || d == ',') with
      | [] => none
      | grp =>
        match cs1.dropWhile (fun d => isWordChar d || isSpaceChar d || d == ',') with
        | r :: cs2 =>
          if r == rbrace then
            (dropLit "=".toList (cs2.dropWhile isSpaceChar)).bind fun cs4 =>
            (dropLit "await".toList (cs4.dropWhile isSpaceChar)).bind fun cs6 =>
            (take1Class isSpaceChar cs6).bind fun sp =>
            (dropLit "import".toList sp.2).bind fun cs8 =>
            (dropLit "(".toList (cs8.dropWhile isSpaceChar)).bind fun cs10 =>
              match cs10.dropWhile isSpaceChar with
              | q :: cs12 =>
                if isQuote q then
                  (dropLit "@/db/queries/".toList cs12).bind fun cs13 =>
                  (matchModTail cs13).map fun mr => ((String.mk grp, mr.1), mr.2)
                else none
              | [] => none
          else none
        | [] => none
    else none
  | [] => none

/-- Left-to-right non-overlapping scan with a matcher, fuelled by the input
length (each successful match consumes at least one character, so the fuel
is sufficient; the model of re.finditer / re.findall). -/
def scanFuel {α : Type} (m : List Char → Option (α × List Char)) : Nat → List Char → List α
  | 0, _ => []
  | _ + 1, [] => []
  | fuel + 1, c :: cs =>
    match m (c :: cs) with
    | some (a, rest) => a :: scanFuel m fuel rest
    | none => scanFuel m fuel cs

/-- Run a scan over a whole character list. -/
def scanAll {α : Type} (m : List Char → Option (α × List Char)) (cs : List Char) : List α :=
  scanFuel m cs.length cs

/-- Origin name of an aliased binding: the stripped part before the first
as separator (Python split-on-as, first component, stripped). -/
def asOrigin (f1 : String) : String := pyStrip ((pySplitOn f1 " as ").headD f1)

/-- Exposed name of an aliased binding: the stripped part after the first
as separator. -/
def asExposed (f1 : String) : String := pyStrip ((pySplitOn f1 " as ").getD 1 f1)

/-- Per-binding processing shared by the static-import and index-import
blocks of extract_used_queries: split the captured group on commas, strip,
skip type-only entries, keep the origin name of an aliased binding, and
keep the binding only when it is nonempty and called in the content. -/
def processImportFunc (content : String) (module : String) (funcsRaw : String) :
    List (String × String) :=
  (pySplitOn funcsRaw ",").filterMap fun f0 =>
    let f1 := pyStrip f0
    if pyStartsWith f1 "type " then none
    else
      let f2 := if containsSub f1 " as " then asOrigin f1 else f1
      if f2 != "" && calledIn f2 content then some (module, f2) else none

/-- Per-binding processing of the dynamic-import block of
extract_used_queries: split on commas, strip, and keep the binding only
when it is nonempty and called (no type or alias handling in the source). -/
def processDynFunc (content : String) (module : String) (funcsRaw : String) :
    List (String × String) :=
  (pySplitOn funcsRaw ",").filterMap fun f0 =>
    let f := pyStrip f0
    if f != "" && calledIn f content then some (module, f) else none

/-- Embedding of extract_used_queries: the (module, function) usage pairs a
single consumer file contributes, from static imports of a concrete module,
dynamic imports of a concrete module, and static imports of the index file
(the latter tagged with the sentinel module name). -/
def extract_used_queries (content : String) : List (String × String) :=
  let cs := content.toList
  (scanAll matchStaticAt cs).flatMap (fun gm => processImportFunc content gm.2 gm.1)
    ++ (scanAll matchDynAt cs).flatMap (fun gm => processDynFunc content gm.2 gm.1)
    ++ (scanAll matchIndexAt cs).flatMap (fun grp => processImportFunc content "__index__" grp)

/-- The (module, origin-name) pairs the barrel-file block of
find_used_queries adds to the used set: every re-exported binding after
stripping and alias resolution, with no call-site requirement. -/
def barrelPairs (content : String) : List (String × String) :=
  (scanAll matchBarrelAt content.toList).flatMap fun gm =>
    (pySplitOn gm.1 ",").filterMap fun f0 =>
      let f1 := pyStrip f0
      if pyStartsWith f1 "type " then none
      else
        let f2 := if containsSub f1 " as " then asOrigin f1 else f1
        if f2 != "" then some (gm.2, f2) else none

/-- Keys contributed to the used set by the barrel file, as the
module.function strings the source builds. -/
def barrelUsedKeys (content : String) : List String :=
  (barrelPairs content).map fun p => p.1 ++ "." ++ p.2

/-- Keys contributed to the used set by one consumer file. -/
def extractKeys (content : String) : List String :=
  (extract_used_queries content).map fun p => p.1 ++ "." ++ p.2

/-- Embedding of find_used_queries: the used set accumulated over the
consumer-file texts (pages, routes, actions, components, lib utilities —
file discovery and the use-client filter are the out-of-scope collaborator)
plus, when the barrel index file exists, its re-export contribution. -/
def find_used_queries (consumers : List String) (barrel : Option String) : List String :=
  consumers.flatMap extractKeys ++
    (match barrel with
     | some b => barrelUsedKeys b
     | none => [])

/-- Embedding of the is_used predicate of the source: a function is used
when its module.name key is in the used set, or the sentinel-module key
with its bare name is. -/
def is_used (module name : String) (used : List String) : Bool :=
  used.contains (module ++ "." ++ name) || used.contains ("__index__" ++ "." ++ name)

/-- Modelled from the spec: the ReexportEdge set of the Reexport Resolver
(data model section 3 and component 4.2), which the source never
materialises — the barrel block of find_used_queries keeps only the origin
names.  Each edge is (exposedSymbol, originModule, originSymbol): the
exposed name is the post-alias name, the origin symbol the pre-alias name,
parsed from the same export groups as barrelPairs. -/
def reexportEdges (content : String) : List (String × String × String) :=
  (scanAll matchBarrelAt content.toList).flatMap fun gm =>
    (pySplitOn gm.1 ",").filterMap fun f0 =>
      let f1 := pyStrip f0
      if pyStartsWith f1 "type " then none
      else if containsSub f1 " as " then
        if asOrigin f1 != "" then some (asExposed f1, gm.2, asOrigin f1) else none
      else
        if f1 != "" then some (f1, gm.2, f1) else none

/-- Modelled from the spec: the reachability rule of data-model section 3 —
a definition is reachable iff its (module, name) key is in the used set, or
the barrel-indirect key for its name is in the used set and a ReexportEdge
maps the name to (module, name). -/
def specReachable (module name : String) (used : List String)
    (edges : List (String × String × String)) : Bool :=
  used.contains (module ++ "." ++ name) ||
    (used.contains ("__index__" ++ "." ++ name) && edges.contains (name, module, name))

/-- Embedding of the FunctionInfo dataclass (the file-path field, a
filesystem handle, is omitted; the module is the file stem). -/
structure FunctionInfo where
  name : String
  module : String
  start_line : Nat
  end_line : Nat
  content : String
deriving Repr, DecidableEq

/-- Fold the brace counter of parse_functions over one line: an opening
brace sets the started flag and increments, a closing brace decrements. -/
def lineBraces (s : String) (st : Bool × Int) : Bool × Int :=
  s.toList.foldl
    (fun p c =>
      if c == lbrace then (true, p.2 + 1)
      else if c == rbrace then (p.1, p.2 - 1)
      else p)
    st

/-- Offset (from the scan start) of the first line after which the brace
counter has started and returned to zero, or none if that never happens. -/
def findEndOff : List String → Bool → Int → Option Nat
  | [], _, _ => none
  | l :: ls, st, c =>
    let p := lineBraces l (st, c)
    if p.1 && p.2 == 0 then some 0
    else (findEndOff ls p.1 p.2).map (· + 1)

/-- End line of the function whose header is at line i: the first line at
which the brace depth returns to zero, or i itself when it never does
(func_end keeps its initial value in the source). -/
def findEnd (lines : List String) (i : Nat) : Nat :=
  match findEndOff (lines.drop i) false 0 with
  | some k => i + k
  | none => i

/-- Number of leading lines not containing the comment terminator
(the while loop skipping a documentation block). -/
def jsdocOff : List String → Nat
  | [] => 0
  | l :: ls => if containsSub l "*/" then 0 else jsdocOff ls + 1

/-- Index of the line containing the comment terminator, starting from
line i (or the list length if there is none). -/
def findJsdocEnd (lines : List String) (i : Nat) : Nat :=
  i + jsdocOff (lines.drop i)

/-- Anchored match of the function-header regex of the source:
export, whitespace, async, whitespace, function, whitespace, a word-character
name, optional whitespace, an opening parenthesis.  Returns the name. -/
def headerName (line : String) : Option String :=
  (dropLit "export".toList line.toList).bind fun cs1 =>
  (take1Class isSpaceChar cs1).bind fun s1 =>
  (dropLit "async".toList s1.2).bind fun cs3 =>
  (take1Class isSpaceChar cs3).bind fun s2 =>
  (dropLit "function".toList s2.2).bind fun cs5 =>
  (take1Class isSpaceChar cs5).bind fun s3 =>
  (take1Class isWordChar s3.2).bind fun nm =>
    match nm.2.dropWhile isSpaceChar with
    | c :: _ => if c == '(' then some (String.mk nm.1) else none
    | [] => none

/-- Build the FunctionInfo for a span, joining the covered lines as the
raw content (the content field of the dataclass). -/
def mkInfo (module : String) (lines : List String) (s e : Nat) (nm : String) : FunctionInfo :=
  ⟨nm, module, s, e, pyJoin "\n" ((lines.drop s).take (e + 1 - s))⟩

/-- Main scanning loop of parse_functions from line i: skip an optional
documentation block, detect an exported async function header, close its
span with the brace counter, and resume after the span.  The loop advances
by at least one line per step, so any fuel exceeding the remaining line
count makes it run to the end of the file. -/
def parseFrom (module : String) (lines : List String) : Nat → Nat → List FunctionInfo
  | 0, _ => []
  | fuel + 1, i =>
    if i < lines.length then
      let line := lines.getD i ""
      if pyStartsWith (pyStrip line) "/**" then
        let i2 := findJsdocEnd lines i + 1
        if i2 < lines.length then
          match headerName (lines.getD i2 "") with
          | some nm =>
            mkInfo module lines i (findEnd lines i2) nm ::
              parseFrom module lines fuel (findEnd lines i2 + 1)
          | none => parseFrom module lines fuel (i2 + 1)
        else []
      else
        match headerName line with
        | some nm =>
          mkInfo module lines i (findEnd lines i) nm ::
            parseFrom module lines fuel (findEnd lines i + 1)
        | none => parseFrom module lines fuel (i + 1)
    else []

/-- Embedding of parse_functions on a file's text (the module is the file
stem, supplied by the out-of-scope directory walk). -/
def parse_functions (module : String) (content : String) : List FunctionInfo :=
  parseFrom module (pySplitOn content "\n") ((pySplitOn content "\n").length + 1) 0

/-- Deletion of the half-open line slice start..end+1 (Python del of a
list slice). -/
def delRange (lines : List String) (s e : Nat) : List String :=
  lines.take s ++ lines.drop (e + 1)

/-- Insertion into a list kept in descending start-line order. -/
def insertDesc (f : FunctionInfo) : List FunctionInfo → List FunctionInfo
  | [] => [f]
  | g :: gs => if g.start_line ≤ f.start_line then f :: g :: gs else g :: insertDesc f gs

/-- Sort by start line, descending (the reverse sort of remove_functions). -/
def sortDesc (fs : List FunctionInfo) : List FunctionInfo :=
  fs.foldr insertDesc []

/-- Blank-line cleanup pass of remove_functions: drop a blank line whose
predecessor was blank, tracking the previous line's blankness. -/
def collapseBlanks : List String → Bool → List String
  | [], _ => []
  | l :: ls, prev =>
    let b := pyStrip l == ""
    if b && prev then collapseBlanks ls prev
    else l :: collapseBlanks ls b

/-- Embedding of remove_functions: delete the spans of the given functions
from the file text, highest start line first, then collapse doubled blank
lines. -/
def remove_functions (content : String) (fns : List FunctionInfo) : String :=
  let lines := pySplitOn content "\n"
  let lines2 := (sortDesc fns).foldl (fun acc f => delRange acc f.start_line f.end_line) lines
  pyJoin "\n" (collapseBlanks lines2 false)

/-- Whether a line index falls inside the inclusive span of one of the
given functions (specification-side view of the removal set). -/
def removedIdx (fns : List FunctionInfo) (i : Nat) : Bool :=
  fns.any fun f => f.start_line ≤ i && i ≤ f.end_line

/-- Specification-side removal: keep exactly the lines whose index (counted
from i) is outside every span. -/
def keepFrom (fns : List FunctionInfo) : Nat → List String → List String
  | _, [] => []
  | i, l :: ls =>
    if removedIdx fns i then keepFrom fns (i + 1) ls
    else l :: keepFrom fns (i + 1) ls

/-- Specification-side removal over a whole file's lines. -/
def keepLines (fns : List FunctionInfo) (lines : List String) : List String :=
  keepFrom fns 0 lines

/-- A line is blank when it strips to the empty string. -/
def isBlankL (l : String) : Bool := pyStrip l == ""

/-- Specification-side blank collapse: drop exactly those blank lines whose
immediate predecessor in the sequence is also blank (pairing every line
with its predecessor's blankness). -/
def collapseKeep (lines : List String) : List String :=
  (lines.zip (false :: lines.map isBlankL)).filterMap fun p =>
    if isBlankL p.1 && p.2 then none else some p.1

/-- Well-formed span list: spans are pairwise disjoint in file order,
each with a start no greater than its end, and within the line count. -/
def SpansOk (fns : List FunctionInfo) (n : Nat) : Prop :=
  List.Pairwise (fun a b => a.end_line < b.start_line) fns ∧
    (∀ f ∈ fns, f.start_line ≤ f.end_line ∧ f.end_line < n)

/-!  Lemmas about the extractor and the used set.  -/

theorem mem_processImportFunc {content module funcsRaw : String} {p : String × String}
    (h : p ∈ processImportFunc content module funcsRaw) :
    p.1 = module ∧ calledIn p.2 content = true := by
  simp only [processImportFunc, List.mem_filterMap] at h
  obtain ⟨f0, _hf0, heq⟩ := h
  by_cases ht : pyStartsWith (pyStrip f0) "type " = true
  · rw [if_pos ht] at heq
    exact Option.noConfusion heq
  · rw [if_neg ht] at heq
    by_cases hc :
        ((if containsSub (pyStrip f0) " as " then asOrigin (pyStrip f0) else pyStrip f0) != ""
          && calledIn
            (if containsSub (pyStrip f0) " as " then asOrigin (pyStrip f0) else pyStrip f0)
            content) = true
    · rw [if_pos hc] at heq
      cases Option.some.inj heq
      exact ⟨rfl, Bool.and_elim_right hc⟩
    · rw [if_neg hc] at heq
      exact Option.noConfusion heq

theorem mem_processDynFunc {content module funcsRaw : String} {p : String × String}
    (h : p ∈ processDynFunc content module funcsRaw) :
    p.1 = module ∧ calledIn p.2 content = true := by
  simp only [processDynFunc, List.mem_filterMap] at h
  obtain ⟨f0, _hf0, heq⟩ := h
  by_cases hc : (pyStrip f0 != "" && calledIn (pyStrip f0) content) = true
  · rw [if_pos hc] at heq
    cases Option.some.inj heq
    exact ⟨rfl, Bool.and_elim_right hc⟩
  · rw [if_neg hc] at heq
    exact Option.noConfusion heq

theorem mem_extract_called {content : String} {p : String × String}
    (h : p ∈ extract_used_queries content) : calledIn p.2 content = true := by
  simp only [extract_used_queries, List.mem_append, List.mem_flatMap] at h
  rcases h with (h | h) | h
  · obtain ⟨gm, _, hp⟩ := h
    exact (mem_processImportFunc hp).2
  · obtain ⟨gm, _, hp⟩ := h
    exact (mem_processDynFunc hp).2
  · obtain ⟨grp, _, hp⟩ := h
    exact (mem_processImportFunc hp).2

theorem barrelPairs_eq_edges (b : String) :
    barrelPairs b = (reexportEdges b).map fun e => (e.2.1, e.2.2) := by
  unfold barrelPairs reexportEdges
  rw [List.map_flatMap]
  apply List.flatMap_congr
  intro gm _
  rw [List.map_filterMap]
  apply List.filterMap_congr
  intro f0 _
  by_cases ht : pyStartsWith (pyStrip f0) "type " = true
  · simp [ht]
  · by_cases has : containsSub (pyStrip f0) " as " = true
    · by_cases ho : asOrigin (pyStrip f0) = ""
      · simp [ht, has, ho]
      · simp [ht, has, ho]
    · by_cases ho : pyStrip f0 = ""
      · simp only [ho]
        rfl
      · simp [ht, has, ho]

theorem edge_mem_barrelPairs {b : String} {e : String × String × String}
    (h : e ∈ reexportEdges b) : (e.2.1, e.2.2) ∈ barrelPairs b := by
  rw [barrelPairs_eq_edges]
  exact List.mem_map_of_mem _ h

theorem barrel_key_used {cs : List String} {b M f : String}
    (h : (M, f) ∈ barrelPairs b) : is_used M f (find_used_queries cs (some b)) = true := by
  unfold is_used find_used_queries barrelUsedKeys
  have hk : (M ++ "." ++ f) ∈ (barrelPairs b).map (fun p => p.1 ++ "." ++ p.2) :=
    List.mem_map_of_mem _ h
  rw [Bool.or_eq_true, List.elem_iff, List.elem_iff]
  exact Or.inl (List.mem_append_right _ hk)

theorem index_key_used {consumers : List String} {barrel : Option String} {c m n : String}
    (hc : c ∈ consumers) (hx : ("__index__", n) ∈ extract_used_queries c) :
    is_used m n (find_used_queries consumers barrel) = true := by
  unfold is_used find_used_queries
  have hk : ("__index__" ++ "." ++ n) ∈ consumers.flatMap extractKeys := by
    rw [List.mem_flatMap]
    exact ⟨c, hc, List.mem_map_of_mem _ hx⟩
  rw [Bool.or_eq_true, List.elem_iff, List.elem_iff]
  exact Or.inr (List.mem_append_left _ hk)

/-!  Claim C1.  -/

/-- C1 counterexample: the definition (modA, foo) is classified reachable by
the code although its direct key is absent and no re-export edge of the
barrel maps foo to (modA, foo) — the spec's membership rule evaluates to
false on the same used set, so the claimed equivalence fails. -/
theorem c1_counterexample :
    is_used "modA" "foo"
        (find_used_queries ["import \x7b foo \x7d from '@/db/queries'\nfoo()"]
          (some "export \x7b foo \x7d from './modB'")) = true ∧
      specReachable "modA" "foo"
        (find_used_queries ["import \x7b foo \x7d from '@/db/queries'\nfoo()"]
          (some "export \x7b foo \x7d from './modB'"))
        (reexportEdges "export \x7b foo \x7d from './modB'") = false :=
  ⟨rfl, rfl⟩

/-- C1 (amended): a definition is classified reachable iff its direct
module.name key appears among the consumer-extracted keys or the
barrel-contributed keys, or the sentinel-module key of its bare name does;
re-export edges are never consulted — the barrel instead contributes the
origin key of every edge directly to the used set. -/
theorem c1_reachability_rule (consumers : List String) (b m n : String) :
    (is_used m n (find_used_queries consumers (some b)) = true ↔
      (m ++ "." ++ n) ∈ consumers.flatMap extractKeys ∨
        (m ++ "." ++ n) ∈ barrelUsedKeys b ∨
        ("__index__" ++ "." ++ n) ∈ consumers.flatMap extractKeys ∨
        ("__index__" ++ "." ++ n) ∈ barrelUsedKeys b) ∧
      barrelUsedKeys b = (reexportEdges b).map (fun e => e.2.1 ++ "." ++ e.2.2) := by
  constructor
  · unfold is_used find_used_queries
    rw [Bool.or_eq_true, List.elem_iff, List.elem_iff, List.mem_append, List.mem_append]
    tauto
  · unfold barrelUsedKeys
    rw [barrelPairs_eq_edges, List.map_map]
    rfl

/-- C1 witness: the amended rule evaluated at a concrete barrel,
in the barrel-key direction. -/
theorem c1_reachability_rule_witness :
    is_used "modB" "foo" (find_used_queries [] (some "export \x7b foo \x7d from './modB'")) = true :=
  (c1_reachability_rule [] "export \x7b foo \x7d from './modB'" "modB" "foo").1.mpr
    (Or.inr (Or.inl (by decide)))

/-!  Claim C2.  -/

/-- C2 counterexample: with no barrel index file, a function whose only
evidence of use is the barrel-indirect key (imported from the index and
called) is still classified used — its direct key is absent from the used
set — where the claim says it must be classified unused. -/
theorem c2_counterexample :
    is_used "modA" "foo"
        (find_used_queries ["import \x7b foo \x7d from '@/db/queries'\nfoo()"] none) = true ∧
      (find_used_queries ["import \x7b foo \x7d from '@/db/queries'\nfoo()"] none).contains
          ("modA" ++ "." ++ "foo") = false :=
  ⟨rfl, rfl⟩

/-- C2 (amended): if the barrel index file does not exist the barrel block
contributes nothing to the used set (it is exactly the consumer-extracted
keys); but a function whose bare name has a barrel-indirect key is still
classified used in every module, because the sentinel key matches by bare
name without any resolution. -/
theorem c2_no_barrel_still_used (consumers : List String) (m n : String)
    (h : ("__index__" ++ "." ++ n) ∈ consumers.flatMap extractKeys) :
    find_used_queries consumers none = consumers.flatMap extractKeys ∧
      is_used m n (find_used_queries consumers none) = true := by
  refine ⟨by unfold find_used_queries; exact List.append_nil _, ?_⟩
  unfold is_used find_used_queries
  rw [Bool.or_eq_true, List.elem_iff, List.elem_iff, List.append_nil]
  exact Or.inr h

/-- C2 witness: the amended statement evaluated on a concrete consumer
that imports foo from the index and calls it, with no barrel file. -/
theorem c2_no_barrel_still_used_witness :
    find_used_queries ["import \x7b foo \x7d from '@/db/queries'\nfoo()"] none =
        ["import \x7b foo \x7d from '@/db/queries'\nfoo()"].flatMap extractKeys ∧
      is_used "modA" "foo"
        (find_used_queries ["import \x7b foo \x7d from '@/db/queries'\nfoo()"] none) = true :=
  c2_no_barrel_still_used ["import \x7b foo \x7d from '@/db/queries'\nfoo()"] "modA" "foo"
    (by decide)

/-!  Claim C3.  -/

/-- C3: a barrel edge re-exporting origin f of module M under exposed name
g, together with a consumer that imports g from the aggregating index and
calls it, makes the definition (M, f) reachable, even when no consumer has
a direct import of (M, f). -/
theorem c3_barrel_alias_reachable
    (barrel g M f : String) (consumers : List String) (c : String)
    (hedge : (g, M, f) ∈ reexportEdges barrel)
    (_hc : c ∈ consumers)
    (_huse : ("__index__", g) ∈ extract_used_queries c)
    (_hnodirect : ∀ d ∈ consumers, (M, f) ∉ extract_used_queries d) :
    is_used M f (find_used_queries consumers (some barrel)) = true :=
  barrel_key_used (edge_mem_barrelPairs hedge)

/-- C3 witness: the spec's example — the barrel re-exports archiveWidget as
removeWidget, a consumer imports removeWidget from the index and calls it,
and (widgets, archiveWidget) is classified reachable. -/
theorem c3_barrel_alias_reachable_witness :
    ("removeWidget", "widgets", "archiveWidget") ∈
        reexportEdges "export \x7b archiveWidget as removeWidget \x7d from './widgets'" ∧
      is_used "widgets" "archiveWidget"
        (find_used_queries
          ["import \x7b removeWidget \x7d from '@/db/queries'\nawait removeWidget()"]
          (some "export \x7b archiveWidget as removeWidget \x7d from './widgets'")) = true :=
  ⟨by decide,
    c3_barrel_alias_reachable
      "export \x7b archiveWidget as removeWidget \x7d from './widgets'"
      "removeWidget" "widgets" "archiveWidget"
      ["import \x7b removeWidget \x7d from '@/db/queries'\nawait removeWidget()"]
      "import \x7b removeWidget \x7d from '@/db/queries'\nawait removeWidget()"
      (by decide) (by decide) (by decide) (by decide)⟩

/-!  Claim C4.  -/

/-- C4 counterexample: a barrel with two edges exposing the same name foo
is processed without any error signal; both origins' keys silently enter
the used set and both definitions are classified reachable although no
consumer references either directly — the claimed fall-back to direct-only
reachability does not happen. -/
theorem c4_counterexample :
    (reexportEdges "export \x7b foo \x7d from './a'\nexport \x7b foo \x7d from './b'").map
        (fun e => e.1) = ["foo", "foo"] ∧
      find_used_queries []
          (some "export \x7b foo \x7d from './a'\nexport \x7b foo \x7d from './b'") =
        ["a.foo", "b.foo"] ∧
      is_used "a" "foo"
          (find_used_queries []
            (some "export \x7b foo \x7d from './a'\nexport \x7b foo \x7d from './b'")) = true ∧
      is_used "b" "foo"
          (find_used_queries []
            (some "export \x7b foo \x7d from './a'\nexport \x7b foo \x7d from './b'")) = true :=
  ⟨rfl, rfl, rfl, rfl⟩

/-- C4 (amended): duplicate exposed names in the barrel are not detected
and nothing is disabled; every edge, duplicate or not, contributes its
origin (module, name) key to the used set, so all competing origins are
classified reachable without any direct usage. -/
theorem c4_duplicate_exposed_both_reachable
    (b g M1 f1 M2 f2 : String) (cs : List String)
    (h1 : (g, M1, f1) ∈ reexportEdges b) (h2 : (g, M2, f2) ∈ reexportEdges b) :
    is_used M1 f1 (find_used_queries cs (some b)) = true ∧
      is_used M2 f2 (find_used_queries cs (some b)) = true :=
  ⟨barrel_key_used (edge_mem_barrelPairs h1), barrel_key_used (edge_mem_barrelPairs h2)⟩

/-- C4 witness: the amended statement on the concrete duplicate barrel. -/
theorem c4_duplicate_exposed_both_reachable_witness :
    is_used "a" "foo"
        (find_used_queries []
          (some "export \x7b foo \x7d from './a'\nexport \x7b foo \x7d from './b'")) = true ∧
      is_used "b" "foo"
        (find_used_queries []
          (some "export \x7b foo \x7d from './a'\nexport \x7b foo \x7d from './b'")) = true :=
  c4_duplicate_exposed_both_reachable
    "export \x7b foo \x7d from './a'\nexport \x7b foo \x7d from './b'"
    "foo" "a" "foo" "b" "foo" [] (by decide) (by decide)

/-!  Claim C6.  -/

/-- C6: a symbol that never occurs in the file followed by an opening call
parenthesis (the call pattern of the source) contributes no usage pair,
whatever import it appears in — a bare import is never usage. -/
theorem c6_no_call_no_use (content f : String)
    (hf : calledIn f content = false) (m : String) :
    (m, f) ∉ extract_used_queries content := by
  intro hmem
  have hcalled := mem_extract_called hmem
  rw [hf] at hcalled
  exact Bool.noConfusion hcalled

/-- C6 witness: a consumer that imports foo from a concrete module and
never calls it yields no usage pair for foo. -/
theorem c6_no_call_no_use_witness :
    calledIn "foo" "import \x7b foo \x7d from '@/db/queries/mod'\nexport const x = 1;" = false ∧
      ("mod", "foo") ∉
        extract_used_queries "import \x7b foo \x7d from '@/db/queries/mod'\nexport const x = 1;" :=
  ⟨rfl,
    c6_no_call_no_use "import \x7b foo \x7d from '@/db/queries/mod'\nexport const x = 1;" "foo"
      rfl "mod"⟩

/-!  Claim C10.  -/

/-- C10: barrel-indirect usage is matched by bare name across all modules —
whenever some consumer imports n from the aggregating index and calls it,
every definition named n in every module is classified reachable, whatever
the barrel's re-export edges say. -/
theorem c10_bare_name_index_match
    (consumers : List String) (barrel : Option String) (c module n : String)
    (hc : c ∈ consumers) (hx : ("__index__", n) ∈ extract_used_queries c) :
    is_used module n (find_used_queries consumers barrel) = true :=
  index_key_used hc hx

/-- C10 witness: a consumer calling foo imported from the index makes the
definition foo of an arbitrary unrelated module reachable even though the
barrel resolves foo to modB. -/
theorem c10_bare_name_index_match_witness :
    is_used "completelyUnrelated" "foo"
        (find_used_queries ["import \x7b foo \x7d from '@/db/queries'\nfoo()"]
          (some "export \x7b foo \x7d from './modB'")) = true :=
  c10_bare_name_index_match
    ["import \x7b foo \x7d from '@/db/queries'\nfoo()"]
    (some "export \x7b foo \x7d from './modB'")
    "import \x7b foo \x7d from '@/db/queries'\nfoo()"
    "completelyUnrelated" "foo"
    (by decide) (by decide)

/-!  Span lemmas for the function-boundary parser.  -/

theorem findEndOff_lt_length {ls : List String} {st : Bool} {c : Int} {k : Nat}
    (h : findEndOff ls st c = some k) : k < ls.length := by
  induction ls generalizing st c k with
  | nil => exact Option.noConfusion h
  | cons l ls ih =>
    rw [findEndOff] at h
    by_cases hb : ((lineBraces l (st, c)).1 && (lineBraces l (st, c)).2 == 0) = true
    · rw [if_pos hb] at h
      cases Option.some.inj h
      exact Nat.succ_pos _
    · rw [if_neg hb] at h
      cases hrec : findEndOff ls (lineBraces l (st, c)).1 (lineBraces l (st, c)).2 with
      | none => rw [hrec] at h; exact Option.noConfusion h
      | some k' =>
        rw [hrec] at h
        cases Option.some.inj h
        exact Nat.succ_lt_succ (ih hrec)

theorem findEnd_ge (lines : List String) (i : Nat) : i ≤ findEnd lines i := by
  unfold findEnd
  cases findEndOff (lines.drop i) false 0 with
  | none => exact Nat.le_refl _
  | some k => exact Nat.le_add_right _ _

theorem findEnd_lt_length {lines : List String} {i : Nat} (hi : i < lines.length) :
    findEnd lines i < lines.length := by
  cases h : findEndOff (lines.drop i) false 0 with
  | none =>
    simp only [findEnd, h]
    exact hi
  | some k =>
    have hk := findEndOff_lt_length h
    rw [List.length_drop] at hk
    simp only [findEnd, h]
    omega

theorem parseFrom_spans (module : String) (lines : List String) :
    ∀ fuel i,
      (∀ f ∈ parseFrom module lines fuel i,
          i ≤ f.start_line ∧ f.start_line ≤ f.end_line ∧ f.end_line < lines.length) ∧
        List.Pairwise (fun a b => a.end_line < b.start_line) (parseFrom module lines fuel i) := by
  intro fuel
  induction fuel with
  | zero =>
    intro i
    constructor
    · intro f hf
      exact absurd hf (List.not_mem_nil f)
    · exact List.Pairwise.nil
  | succ fuel ih =>
    intro i
    by_cases hi : i < lines.length
    · by_cases hjs : pyStartsWith (pyStrip (lines.getD i "")) "/**" = true
      · by_cases hi2 : findJsdocEnd lines i + 1 < lines.length
        · cases hname : headerName (lines.getD (findJsdocEnd lines i + 1) "") with
          | some nm =>
            have heq : parseFrom module lines (fuel + 1) i =
                mkInfo module lines i (findEnd lines (findJsdocEnd lines i + 1)) nm ::
                  parseFrom module lines fuel (findEnd lines (findJsdocEnd lines i + 1) + 1) := by
              simp only [parseFrom, if_pos hi, hjs, if_true, if_pos hi2, hname]
            have hge : findJsdocEnd lines i + 1 ≤ findEnd lines (findJsdocEnd lines i + 1) :=
              findEnd_ge lines _
            have hja : i ≤ findJsdocEnd lines i := Nat.le_add_right i _
            have hlt : findEnd lines (findJsdocEnd lines i + 1) < lines.length :=
              findEnd_lt_length hi2
            rw [heq]
            obtain ⟨iha, ihp⟩ := ih (findEnd lines (findJsdocEnd lines i + 1) + 1)
            constructor
            · intro f hf
              rcases List.mem_cons.mp hf with rfl | hf'
              · exact ⟨Nat.le_refl i, by simp only [mkInfo]; omega, hlt⟩
              · have := iha f hf'
                omega
            · exact List.Pairwise.cons
                (fun f' hf' => by have := iha f' hf'; simp only [mkInfo]; omega) ihp
          | none =>
            have heq : parseFrom module lines (fuel + 1) i =
                parseFrom module lines fuel (findJsdocEnd lines i + 2) := by
              simp only [parseFrom, if_pos hi, hjs, if_true, if_pos hi2, hname]
            have hja : i ≤ findJsdocEnd lines i := Nat.le_add_right i _
            rw [heq]
            obtain ⟨iha, ihp⟩ := ih (findJsdocEnd lines i + 2)
            exact ⟨fun f hf => by have := iha f hf; omega, ihp⟩
        · have heq : parseFrom module lines (fuel + 1) i = [] := by
            simp only [parseFrom, if_pos hi, hjs, if_true, if_neg hi2]
          rw [heq]
          exact ⟨fun f hf => absurd hf (List.not_mem_nil f), List.Pairwise.nil⟩
      · cases hname : headerName (lines.getD i "") with
        | some nm =>
          have heq : parseFrom module lines (fuel + 1) i =
              mkInfo module lines i (findEnd lines i) nm ::
                parseFrom module lines fuel (findEnd lines i + 1) := by
            simp only [parseFrom, if_pos hi, hjs, Bool.false_eq_true, if_false, hname]
          have hge : i ≤ findEnd lines i := findEnd_ge lines i
          have hlt : findEnd lines i < lines.length := findEnd_lt_length hi
          rw [heq]
          obtain ⟨iha, ihp⟩ := ih (findEnd lines i + 1)
          constructor
          · intro f hf
            rcases List.mem_cons.mp hf with rfl | hf'
            · exact ⟨Nat.le_refl i, hge, hlt⟩
            · have := iha f hf'
              omega
          · exact List.Pairwise.cons
              (fun f' hf' => by have := iha f' hf'; simp only [mkInfo]; omega) ihp
        | none =>
          have heq : parseFrom module lines (fuel + 1) i = parseFrom module lines fuel (i + 1) := by
            simp only [parseFrom, if_pos hi, hjs, Bool.false_eq_true, if_false, hname]
          rw [heq]
          obtain ⟨iha, ihp⟩ := ih (i + 1)
          exact ⟨fun f hf => by have := iha f hf; omega, ihp⟩
    · have heq : parseFrom module lines (fuel + 1) i = [] := by
        simp only [parseFrom, if_neg hi]
      rw [heq]
      exact ⟨fun f hf => absurd hf (List.not_mem_nil f), List.Pairwise.nil⟩

/-!  Claim C9.  -/

/-- C9: for any definition file, the parser returns spans in file order
whose inclusive line ranges are pairwise disjoint and non-overlapping
(every span ends strictly before the next one starts, and each span's
start is no greater than its end). -/
theorem c9_spans_disjoint_ordered (module content : String) :
    List.Pairwise (fun a b => a.end_line < b.start_line) (parse_functions module content) ∧
      ((parse_functions module content).all fun f =>
        decide (f.start_line ≤ f.end_line)) = true := by
  obtain ⟨ha, hp⟩ := parseFrom_spans module (pySplitOn content "\n")
    ((pySplitOn content "\n").length + 1) 0
  refine ⟨hp, ?_⟩
  rw [List.all_eq_true]
  intro f hf
  exact decide_eq_true (ha f hf).2.1

/-!  Claim C5.  -/

/-- C5 counterexample: in a file whose single exported async function never
closes its brace, the parser does not stop — it returns a guessed span
covering only the header line. -/
theorem c5_counterexample :
    findEndOff (pySplitOn "export async function f() \x7b\nconst x = 1;" "\n") false 0 = none ∧
      parse_functions "m" "export async function f() \x7b\nconst x = 1;" =
        [⟨"f", "m", 0, 0, "export async function f() \x7b"⟩] :=
  ⟨rfl, rfl⟩

/-- C5 (amended): when the brace depth of an exported async function never
returns to zero, the parser emits a definition whose span is truncated to
the header line itself (func_end keeps its initial value) and the scan
continues on the next line — there is no hard stop. -/
theorem c5_unbalanced_truncated (module : String) (lines : List String)
    (fuel i : Nat) (nm : String)
    (hi : i < lines.length)
    (hjs : pyStartsWith (pyStrip (lines.getD i "")) "/**" = false)
    (hname : headerName (lines.getD i "") = some nm)
    (hunb : findEndOff (lines.drop i) false 0 = none) :
    parseFrom module lines (fuel + 1) i =
      mkInfo module lines i i nm :: parseFrom module lines fuel (i + 1) := by
  have hfe : findEnd lines i = i := by
    unfold findEnd
    rw [hunb]
  simp only [parseFrom, if_pos hi, hjs, Bool.false_eq_true, if_false, hname, hfe]

/-- C5 witness: the amended statement on the concrete unbalanced file. -/
theorem c5_unbalanced_truncated_witness :
    headerName "export async function f() \x7b" = some "f" ∧
      findEndOff ["export async function f() \x7b", "const x = 1;"] false 0 = none ∧
      parseFrom "m" ["export async function f() \x7b", "const x = 1;"] 3 0 =
        mkInfo "m" ["export async function f() \x7b", "const x = 1;"] 0 0 "f" ::
          parseFrom "m" ["export async function f() \x7b", "const x = 1;"] 2 1 :=
  ⟨rfl, rfl,
    c5_unbalanced_truncated "m" ["export async function f() \x7b", "const x = 1;"] 2 0 "f"
      (by decide) rfl rfl rfl⟩

/-!  Claim C7, counterexample part.  -/

/-- C7 counterexample: a file with no functions and a pre-existing run of
two blank lines; the remover is applied with the empty removal set (the
only subset of its parsed definitions), yet the output is not the input —
the pre-existing blank run is collapsed although no removal made it
adjacent to anything. -/
theorem c7_counterexample :
    parse_functions "m" "a\n\n\nb" = [] ∧
      remove_functions "a\n\n\nb" [] = "a\n\nb" ∧
      "a\n\nb" ≠ "a\n\n\nb" :=
  ⟨rfl, rfl, by decide⟩

/-!  Frame lemmas for the safe remover.  -/

theorem keepFrom_nil_spans (A : List String) : ∀ i, keepFrom [] i A = A := by
  induction A with
  | nil => intro i; rfl
  | cons l ls ih =>
    intro i
    simp only [keepFrom, removedIdx, List.any_nil, Bool.false_eq_true, if_false]
    rw [ih]

theorem keepFrom_append (fns : List FunctionInfo) (A B : List String) :
    ∀ i, keepFrom fns i (A ++ B) = keepFrom fns i A ++ keepFrom fns (i + A.length) B := by
  induction A with
  | nil =>
    intro i
    simp [keepFrom]
  | cons l ls ih =>
    intro i
    simp only [List.cons_append, keepFrom, List.append_eq]
    by_cases hr : removedIdx fns i = true
    · rw [if_pos hr, if_pos hr, ih (i + 1), List.length_cons]
      have harith : i + 1 + ls.length = i + (ls.length + 1) := by omega
      rw [harith]
    · rw [if_neg hr, if_neg hr, ih (i + 1), List.length_cons]
      have harith : i + 1 + ls.length = i + (ls.length + 1) := by omega
      rw [harith, List.cons_append]

theorem keepFrom_none (fns : List FunctionInfo) (A : List String) :
    ∀ i, (∀ idx, i ≤ idx → idx < i + A.length → removedIdx fns idx = false) →
      keepFrom fns i A = A := by
  induction A with
  | nil => intro i _; rfl
  | cons l ls ih =>
    intro i h
    simp only [keepFrom]
    rw [h i (Nat.le_refl i) (by simp only [List.length_cons]; omega)]
    simp only [Bool.false_eq_true, if_false]
    rw [ih (i + 1)
      (fun idx h1 h2 => h idx (by omega) (by simp only [List.length_cons]; omega))]

theorem keepFrom_all (fns : List FunctionInfo) (A : List String) :
    ∀ i, (∀ idx, i ≤ idx → idx < i + A.length → removedIdx fns idx = true) →
      keepFrom fns i A = [] := by
  induction A with
  | nil => intro i _; rfl
  | cons l ls ih =>
    intro i h
    simp only [keepFrom]
    rw [h i (Nat.le_refl i) (by simp only [List.length_cons]; omega)]
    simp only [if_true]
    exact ih (i + 1)
      (fun idx h1 h2 => h idx (by omega) (by simp only [List.length_cons]; omega))

theorem keepFrom_head_skip (f : FunctionInfo) (rest : List FunctionInfo) (A : List String) :
    ∀ i, f.end_line < i → keepFrom (f :: rest) i A = keepFrom rest i A := by
  induction A with
  | nil => intro i _; rfl
  | cons l ls ih =>
    intro i hi
    have hr : removedIdx (f :: rest) i = removedIdx rest i := by
      simp only [removedIdx, List.any_cons]
      have hfalse : (decide (f.start_line ≤ i) && decide (i ≤ f.end_line)) = false := by
        have hne : ¬ i ≤ f.end_line := by omega
        simp [hne]
      rw [hfalse, Bool.false_or]
    simp only [keepFrom, hr]
    by_cases hb : removedIdx rest i = true
    · rw [if_pos hb, if_pos hb, ih (i + 1) (by omega)]
    · rw [if_neg hb, if_neg hb, ih (i + 1) (by omega)]

theorem insertDesc_last (x : FunctionInfo) (l : List FunctionInfo)
    (h : ∀ g ∈ l, ¬(g.start_line ≤ x.start_line)) : insertDesc x l = l ++ [x] := by
  induction l with
  | nil => rfl
  | cons g gs ih =>
    simp only [insertDesc]
    rw [if_neg (h g (List.mem_cons_self g gs))]
    rw [ih (fun g' hg' => h g' (List.mem_cons_of_mem g hg'))]
    rfl

theorem sortDesc_of_sorted (fns : List FunctionInfo)
    (hpw : List.Pairwise (fun a b => a.end_line < b.start_line) fns)
    (hse : ∀ f ∈ fns, f.start_line ≤ f.end_line) :
    sortDesc fns = fns.reverse := by
  induction fns with
  | nil => rfl
  | cons f rest ih =>
    have hx : sortDesc (f :: rest) = insertDesc f (sortDesc rest) := rfl
    rw [hx, ih hpw.of_cons (fun g hg => hse g (List.mem_cons_of_mem f hg)),
      insertDesc_last f rest.reverse, List.reverse_cons]
    intro g hg
    rw [List.mem_reverse] at hg
    have h1 := (List.pairwise_cons.mp hpw).1 g hg
    have h2 := hse f (List.mem_cons_self f rest)
    omega

theorem removedIdx_false_of_lt (fns : List FunctionInfo) (idx : Nat)
    (h : ∀ g ∈ fns, idx < g.start_line) : removedIdx fns idx = false := by
  rw [removedIdx, List.any_eq_false]
  intro g hg
  have := h g hg
  simp only [Bool.and_eq_true, decide_eq_true_eq, not_and]
  intro hc
  omega

theorem take_len_append (A B : List String) (n : Nat) (h : A.length = n) :
    (A ++ B).take n = A := by
  subst h
  exact List.take_left A B

theorem drop_len_append (A B : List String) (n : Nat) (h : A.length = n) :
    (A ++ B).drop n = B := by
  subst h
  exact List.drop_left A B

theorem foldr_del_eq_keep :
    ∀ (fns : List FunctionInfo) (lines : List String),
      List.Pairwise (fun a b => a.end_line < b.start_line) fns →
      (∀ f ∈ fns, f.start_line ≤ f.end_line ∧ f.end_line < lines.length) →
      fns.foldr (fun f acc => delRange acc f.start_line f.end_line) lines =
        keepLines fns lines := by
  intro fns
  induction fns with
  | nil =>
    intro lines _ _
    exact (keepFrom_nil_spans lines 0).symm
  | cons f rest ih =>
    intro lines hpw hb
    have hfr : ∀ g ∈ rest, f.end_line < g.start_line := (List.pairwise_cons.mp hpw).1
    have hse : f.start_line ≤ f.end_line := (hb f (List.mem_cons_self f rest)).1
    have hel : f.end_line < lines.length := (hb f (List.mem_cons_self f rest)).2
    rw [List.foldr_cons, ih lines hpw.of_cons (fun g hg => hb g (List.mem_cons_of_mem f hg))]
    have hTlen : (lines.take f.start_line).length = f.start_line := by
      rw [List.length_take]
      omega
    have hDlen : ((lines.drop f.start_line).take (f.end_line + 1 - f.start_line)).length =
        f.end_line + 1 - f.start_line := by
      rw [List.length_take, List.length_drop]
      omega
    have hsplit : lines = lines.take f.start_line ++
        ((lines.drop f.start_line).take (f.end_line + 1 - f.start_line) ++
          lines.drop (f.end_line + 1)) := by
      have h1 : lines.drop (f.end_line + 1) =
          (lines.drop f.start_line).drop (f.end_line + 1 - f.start_line) := by
        rw [List.drop_drop]
        congr 1
        omega
      rw [h1, List.take_append_drop, List.take_append_drop]
    have hnone_rest : keepFrom rest 0 (lines.take f.start_line) = lines.take f.start_line := by
      apply keepFrom_none
      intro idx _ hidx
      rw [hTlen] at hidx
      apply removedIdx_false_of_lt
      intro g hg
      have := hfr g hg
      omega
    have hnone_rest2 : keepFrom rest f.start_line
        ((lines.drop f.start_line).take (f.end_line + 1 - f.start_line)) =
        (lines.drop f.start_line).take (f.end_line + 1 - f.start_line) := by
      apply keepFrom_none
      intro idx hidx1 hidx2
      rw [hDlen] at hidx2
      apply removedIdx_false_of_lt
      intro g hg
      have := hfr g hg
      omega
    have hkeep_rest : keepLines rest lines =
        lines.take f.start_line ++
          ((lines.drop f.start_line).take (f.end_line + 1 - f.start_line) ++
            keepFrom rest (f.end_line + 1) (lines.drop (f.end_line + 1))) := by
      unfold keepLines
      conv_lhs => rw [hsplit]
      rw [keepFrom_append, keepFrom_append, hnone_rest, hTlen, Nat.zero_add, hnone_rest2, hDlen]
      have harith : f.start_line + (f.end_line + 1 - f.start_line) = f.end_line + 1 := by omega
      rw [harith]
    have hkeep_all : keepLines (f :: rest) lines =
        lines.take f.start_line ++
          keepFrom rest (f.end_line + 1) (lines.drop (f.end_line + 1)) := by
      unfold keepLines
      conv_lhs => rw [hsplit]
      rw [keepFrom_append, keepFrom_append, hTlen, Nat.zero_add, hDlen]
      have h0 : keepFrom (f :: rest) 0 (lines.take f.start_line) = lines.take f.start_line := by
        apply keepFrom_none
        intro idx _ hidx
        rw [hTlen] at hidx
        rw [removedIdx, List.any_cons]
        have h1 : (decide (f.start_line ≤ idx) && decide (idx ≤ f.end_line)) = false := by
          have h2 : ¬ f.start_line ≤ idx := by omega
          simp [h2]
        rw [h1, Bool.false_or]
        exact removedIdx_false_of_lt rest idx (fun g hg => by have := hfr g hg; omega)
      have h2 : keepFrom (f :: rest) f.start_line
          ((lines.drop f.start_line).take (f.end_line + 1 - f.start_line)) = [] := by
        apply keepFrom_all
        intro idx hidx1 hidx2
        rw [hDlen] at hidx2
        rw [removedIdx, List.any_cons]
        have h1 : (decide (f.start_line ≤ idx) && decide (idx ≤ f.end_line)) = true := by
          simp only [Bool.and_eq_true, decide_eq_true_eq]
          omega
        rw [h1, Bool.true_or]
      have h3 : keepFrom (f :: rest) (f.start_line + (f.end_line + 1 - f.start_line))
          (lines.drop (f.end_line + 1)) =
          keepFrom rest (f.end_line + 1) (lines.drop (f.end_line + 1)) := by
        have heq : f.start_line + (f.end_line + 1 - f.start_line) = f.end_line + 1 := by omega
        rw [heq]
        exact keepFrom_head_skip f rest _ (f.end_line + 1) (by omega)
      rw [h0, h2, h3, List.nil_append]
    rw [hkeep_rest, hkeep_all]
    unfold delRange
    have hTD : (lines.take f.start_line ++
        (lines.drop f.start_line).take (f.end_line + 1 - f.start_line)).length =
        f.end_line + 1 := by
      rw [List.length_append, hTlen, hDlen]
      omega
    rw [take_len_append _ _ _ hTlen, ← List.append_assoc, drop_len_append _ _ _ hTD]

theorem removeSpans_eq_keep (fns : List FunctionInfo) (lines : List String)
    (hok : SpansOk fns lines.length) :
    (sortDesc fns).foldl (fun acc f => delRange acc f.start_line f.end_line) lines =
      keepLines fns lines := by
  obtain ⟨hpw, hb⟩ := hok
  rw [sortDesc_of_sorted fns hpw (fun f hf => (hb f hf).1), List.foldl_reverse]
  exact foldr_del_eq_keep fns lines hpw hb

theorem collapseBlanks_eq_keep :
    ∀ (ls : List String) (prev : Bool),
      collapseBlanks ls prev =
        (ls.zip (prev :: ls.map isBlankL)).filterMap fun p =>
          if isBlankL p.1 && p.2 then none else some p.1 := by
  intro ls
  induction ls with
  | nil => intro prev; rfl
  | cons l ls ih =>
    intro prev
    simp only [List.map_cons, List.zip_cons_cons, List.filterMap_cons]
    by_cases hb : (isBlankL l && prev) = true
    · have hbl : isBlankL l = true := Bool.and_elim_left hb
      have hp : prev = true := Bool.and_elim_right hb
      rw [hb]
      simp only [collapseBlanks, isBlankL] at *
      rw [hbl, hp]
      simp only [Bool.and_true, if_true]
      rw [ih true, ← hbl]
    · rw [Bool.not_eq_true] at hb
      rw [hb]
      simp only [collapseBlanks, isBlankL] at *
      rw [hb]
      simp only [Bool.false_eq_true, if_false]
      rw [ih (pyStrip l == "")]

/-!  Claim C7, amended part.  -/

/-- C7 (amended): for well-formed spans (in file order, disjoint, within
the file), the remover returns exactly the lines outside the removed spans,
in order and unaltered, followed by the global blank-line pass that drops
precisely those blank lines whose immediate predecessor in the resulting
sequence is also blank — collapsing every blank run to a singleton, whether
the run was created by the removal or already present in the original text;
singleton blanks and non-blank lines are never dropped. -/
theorem c7_removal_exact_and_collapse (content : String) (fns : List FunctionInfo)
    (hok : SpansOk fns (pySplitOn content "\n").length) :
    remove_functions content fns =
      pyJoin "\n"
        (((keepLines fns (pySplitOn content "\n")).zip
            (false :: (keepLines fns (pySplitOn content "\n")).map isBlankL)).filterMap
          fun p => if isBlankL p.1 && p.2 then none else some p.1) := by
  simp only [remove_functions]
  rw [removeSpans_eq_keep fns _ hok, collapseBlanks_eq_keep]

/-- C7 witness: the amended statement on a concrete two-function file with
the first function removed. -/
theorem c7_removal_exact_and_collapse_witness :
    remove_functions "export async function a() \x7b\x7d\n\nexport async function b() \x7b\x7d"
        [⟨"a", "m", 0, 0, "export async function a() \x7b\x7d"⟩] =
      pyJoin "\n"
        (((keepLines [⟨"a", "m", 0, 0, "export async function a() \x7b\x7d"⟩]
              (pySplitOn "export async function a() \x7b\x7d\n\nexport async function b() \x7b\x7d" "\n")).zip
            (false :: (keepLines [⟨"a", "m", 0, 0, "export async function a() \x7b\x7d"⟩]
              (pySplitOn "export async function a() \x7b\x7d\n\nexport async function b() \x7b\x7d" "\n")).map isBlankL)).filterMap
          fun p => if isBlankL p.1 && p.2 then none else some p.1) :=
  c7_removal_exact_and_collapse
    "export async function a() \x7b\x7d\n\nexport async function b() \x7b\x7d"
    [⟨"a", "m", 0, 0, "export async function a() \x7b\x7d"⟩]
    ⟨List.pairwise_singleton _ _, by decide⟩

/-!  Round-trip and idempotence lemmas for the remover output.  -/

theorem splitFuel_no_sep (c : Char) :
    ∀ (cs : List Char) (fuel : Nat) (acc : List Char), cs.length ≤ fuel → c ∉ cs →
      splitFuel [c] fuel cs acc = [acc.reverse ++ cs] := by
  intro cs
  induction cs with
  | nil =>
    intro fuel acc _ _
    cases fuel with
    | zero => rfl
    | succ fuel => simp [splitFuel]
  | cons d cs ih =>
    intro fuel acc hlen hmem
    cases fuel with
    | zero => simp at hlen
    | succ fuel =>
      have hd : (c == d) = false := by
        have : c ≠ d := fun hcd => hmem (hcd ▸ List.mem_cons_self d cs)
        simp [this]
      have hpre : [c].isPrefixOf (d :: cs) = false := by
        simp [List.isPrefixOf, hd]
      simp only [splitFuel, hpre, Bool.false_eq_true, if_false]
      rw [ih fuel (d :: acc) (by simpa using hlen) (fun hmm => hmem (List.mem_cons_of_mem d hmm))]
      simp

theorem splitFuel_sep_split (c : Char) :
    ∀ (A rest acc : List Char), c ∉ A →
      splitFuel [c] (A.length + 1 + rest.length) (A ++ c :: rest) acc =
        (acc.reverse ++ A) :: splitFuel [c] rest.length rest [] := by
  intro A
  induction A with
  | nil =>
    intro rest acc _
    have harith : ([] : List Char).length + 1 + rest.length = rest.length + 1 := by
      simp only [List.length_nil, Nat.zero_add]
      omega
    rw [harith]
    have hpre : [c].isPrefixOf (c :: rest) = true := by simp [List.isPrefixOf]
    simp only [List.nil_append, splitFuel, hpre, if_true, List.drop_succ_cons, List.drop_zero]
    simp
  | cons d A ih =>
    intro rest acc hmem
    have hd : (c == d) = false := by
      have : c ≠ d := fun hcd => hmem (hcd ▸ List.mem_cons_self d A)
      simp [this]
    have harith : (d :: A).length + 1 + rest.length = (A.length + 1 + rest.length) + 1 := by
      simp
      omega
    rw [harith]
    have hpre : [c].isPrefixOf (d :: (A ++ c :: rest)) = false := by
      simp [List.isPrefixOf, hd]
    simp only [List.cons_append, splitFuel, hpre, Bool.false_eq_true, if_false, List.append_eq]
    rw [ih rest (d :: acc) (fun hmm => hmem (List.mem_cons_of_mem d hmm))]
    simp

theorem splitFuel_pieces (c : Char) :
    ∀ (fuel : Nat) (cs acc : List Char), cs.length ≤ fuel → c ∉ acc →
      ∀ p ∈ splitFuel [c] fuel cs acc, c ∉ p := by
  intro fuel
  induction fuel with
  | zero =>
    intro cs acc hlen hacc p hp
    have : cs = [] := List.length_eq_zero.mp (Nat.le_zero.mp hlen)
    subst this
    simp only [splitFuel, List.mem_singleton] at hp
    subst hp
    intro hc
    rcases List.mem_append.mp hc with h | h
    · exact hacc (List.mem_reverse.mp h)
    · simp at h
  | succ fuel ih =>
    intro cs acc hlen hacc p hp
    cases cs with
    | nil =>
      simp only [splitFuel, List.mem_singleton] at hp
      subst hp
      intro hc
      exact hacc (List.mem_reverse.mp hc)
    | cons d cs =>
      by_cases hd : (c == d) = true
      · have hpre : [c].isPrefixOf (d :: cs) = true := by simp [List.isPrefixOf, hd]
        simp only [splitFuel, hpre, if_true, List.drop_succ_cons, List.drop_zero] at hp
        rcases List.mem_cons.mp hp with rfl | hp'
        · intro hc
          exact hacc (List.mem_reverse.mp hc)
        · exact ih cs [] (by simpa using hlen) (by simp) p hp'
      · have hpre : [c].isPrefixOf (d :: cs) = false := by
          simp [List.isPrefixOf]
          simpa using hd
        simp only [splitFuel, hpre, Bool.false_eq_true, if_false] at hp
        have hdc : c ≠ d := by
          intro hcd
          exact hd (by simp [hcd])
        exact ih cs (d :: acc) (by simpa using hlen)
          (fun hmm => by
            rcases List.mem_cons.mp hmm with h | h
            · exact hdc h
            · exact hacc h) p hp

theorem pySplitOn_no_newline (s : String) :
    ∀ l ∈ pySplitOn s "\n", Char.ofNat 10 ∉ l.toList := by
  intro l hl
  simp only [pySplitOn, List.mem_map] at hl
  obtain ⟨p, hp, rfl⟩ := hl
  have hc : ('\n' : Char) = Char.ofNat 10 := rfl
  have := splitFuel_pieces '\n' s.toList.length s.toList [] (Nat.le_refl _) (by simp) p hp
  rw [hc] at this
  exact this

theorem string_toList_append (x y : String) : (x ++ y).toList = x.toList ++ y.toList := rfl

theorem pySplitOn_pyJoin :
    ∀ (L : List String), L ≠ [] → (∀ l ∈ L, Char.ofNat 10 ∉ l.toList) →
      pySplitOn (pyJoin "\n" L) "\n" = L := by
  intro L
  induction L with
  | nil => intro h _; exact absurd rfl h
  | cons a rest ih =>
    intro _ hnl
    have hsep : ("\n" : String).toList = ['\n'] := rfl
    cases rest with
    | nil =>
      simp only [pyJoin, pySplitOn]
      rw [hsep, splitFuel_no_sep '\n' a.toList a.toList.length [] (Nat.le_refl _)
        (fun hmm => hnl a (List.mem_singleton.mpr rfl) hmm)]
      simp
    | cons b t =>
      have hjoin : pyJoin "\n" (a :: b :: t) = a ++ "\n" ++ pyJoin "\n" (b :: t) := by
        rw [pyJoin]
        simp
      have htl : (a ++ "\n" ++ pyJoin "\n" (b :: t)).toList =
          a.toList ++ '\n' :: (pyJoin "\n" (b :: t)).toList := by
        rw [string_toList_append, string_toList_append]
        simp [hsep]
      simp only [pySplitOn, hjoin, htl, hsep]
      have hlen : (a.toList ++ '\n' :: (pyJoin "\n" (b :: t)).toList).length =
          a.toList.length + 1 + (pyJoin "\n" (b :: t)).toList.length := by
        simp
        omega
      rw [hlen, splitFuel_sep_split '\n' a.toList (pyJoin "\n" (b :: t)).toList []
        (fun hmm => hnl a (List.mem_cons_self a (b :: t)) hmm)]
      simp only [List.reverse_nil, List.nil_append, List.map_cons]
      have hmk : String.mk a.toList = a := rfl
      rw [hmk]
      have hrec : (splitFuel ['\n'] (pyJoin "\n" (b :: t)).toList.length
          (pyJoin "\n" (b :: t)).toList []).map String.mk =
          pySplitOn (pyJoin "\n" (b :: t)) "\n" := by
        simp only [pySplitOn, hsep]
      rw [hrec, ih (by simp) (fun l hl => hnl l (List.mem_cons_of_mem a hl))]

theorem mem_delRange {l : String} {L : List String} {s e : Nat}
    (h : l ∈ delRange L s e) : l ∈ L := by
  unfold delRange at h
  rcases List.mem_append.mp h with h' | h'
  · exact List.mem_of_mem_take h'
  · exact List.mem_of_mem_drop h'

theorem mem_foldl_delRange :
    ∀ (fs : List FunctionInfo) (L : List String) (l : String),
      l ∈ fs.foldl (fun acc f => delRange acc f.start_line f.end_line) L → l ∈ L := by
  intro fs
  induction fs with
  | nil => intro L l h; exact h
  | cons f fs ih =>
    intro L l h
    exact mem_delRange (ih (delRange L f.start_line f.end_line) l h)

theorem mem_collapseBlanks :
    ∀ (ls : List String) (prev : Bool) (l : String), l ∈ collapseBlanks ls prev → l ∈ ls := by
  intro ls
  induction ls with
  | nil => intro prev l h; exact absurd h (List.not_mem_nil l)
  | cons x ls ih =>
    intro prev l h
    simp only [collapseBlanks] at h
    by_cases hb : (pyStrip x == "" && prev) = true
    · rw [if_pos hb] at h
      exact List.mem_cons_of_mem x (ih prev l h)
    · rw [if_neg hb] at h
      rcases List.mem_cons.mp h with rfl | h'
      · exact List.mem_cons_self l ls
      · exact List.mem_cons_of_mem x (ih (pyStrip x == "") l h')

theorem collapseBlanks_chain :
    ∀ (ls : List String) (prev : Bool),
      List.Chain' (fun a b => (isBlankL a && isBlankL b) = false) (collapseBlanks ls prev) ∧
        (prev = true → ∀ h ∈ (collapseBlanks ls prev).head?, isBlankL h = false) := by
  intro ls
  induction ls with
  | nil => intro prev; exact ⟨List.chain'_nil, fun _ h hh => by simp [collapseBlanks] at hh⟩
  | cons l ls ih =>
    intro prev
    simp only [collapseBlanks]
    by_cases hb : (pyStrip l == "" && prev) = true
    · rw [if_pos hb]
      exact ih prev
    · rw [if_neg hb]
      constructor
      · rw [List.chain'_cons']
        refine ⟨?_, (ih (pyStrip l == "")).1⟩
        intro y hy
        simp only [isBlankL]
        by_cases hbl : (pyStrip l == "") = true
        · have hyb := (ih (pyStrip l == "")).2 hbl y hy
          simp only [isBlankL] at hyb
          rw [hyb, Bool.and_false]
        · rw [Bool.not_eq_true] at hbl
          rw [hbl, Bool.false_and]
      · intro hprev h hh
        simp only [List.head?_cons, Option.mem_def, Option.some.injEq] at hh
        subst hh
        simp only [isBlankL]
        rw [hprev] at hb
        rw [Bool.not_eq_true, Bool.and_true] at hb
        exact hb

theorem collapseBlanks_id :
    ∀ (ls : List String) (prev : Bool),
      List.Chain' (fun a b => (isBlankL a && isBlankL b) = false) ls →
      (prev = true → ∀ h ∈ ls.head?, isBlankL h = false) →
      collapseBlanks ls prev = ls := by
  intro ls
  induction ls with
  | nil => intro prev _ _; rfl
  | cons l ls ih =>
    intro prev hch hhd
    have hfalse : (pyStrip l == "" && prev) = false := by
      cases prev with
      | false => exact Bool.and_false _
      | true =>
        have := hhd rfl l (by simp)
        simp only [isBlankL] at this
        rw [this, Bool.false_and]
    simp only [collapseBlanks, hfalse, Bool.false_eq_true, if_false]
    rw [ih (pyStrip l == "") (List.chain'_cons'.mp hch).2]
    intro hbl y hy
    have := (List.chain'_cons'.mp hch).1 y hy
    simp only [isBlankL] at *
    rw [hbl] at this
    rw [Bool.true_and] at this
    exact this

theorem remove_functions_nil_twice (content : String) (fns : List FunctionInfo) :
    remove_functions (remove_functions content fns) [] = remove_functions content fns := by
  simp only [remove_functions]
  by_cases hLc : collapseBlanks
      ((sortDesc fns).foldl (fun acc f => delRange acc f.start_line f.end_line)
        (pySplitOn content "\n")) false = []
  · rw [hLc]
    rfl
  · have hnl : ∀ l ∈ collapseBlanks
        ((sortDesc fns).foldl (fun acc f => delRange acc f.start_line f.end_line)
          (pySplitOn content "\n")) false, Char.ofNat 10 ∉ l.toList := by
      intro l hl
      exact pySplitOn_no_newline content l
        (mem_foldl_delRange (sortDesc fns) _ l (mem_collapseBlanks _ false l hl))
    rw [show sortDesc ([] : List FunctionInfo) = [] from rfl, List.foldl_nil,
      pySplitOn_pyJoin _ hLc hnl,
      collapseBlanks_id _ false (collapseBlanks_chain _ false).1
        (fun hff => absurd hff (by simp))]

/-!  Claim C8.  -/

set_option maxRecDepth 40000 in
/-- C8 counterexample: on this file the first pass removes the one parsed
function named u (a truncated span whose header carries two opening
braces); the removal shifts the brace accounting, so on the result the
first function balances at a different line and a previously hidden header
named u becomes visible; re-parsing finds it and the second pass removes
it, so the second application's output differs from the first's. -/
theorem c8_counterexample :
    remove_functions
        (remove_functions
          "export async function f() \x7b\n\x7d\x7d\nexport async function u() \x7b\x7b\nexport async function f() \x7b\nexport async function u() \x7d"
          ((parse_functions "m"
              "export async function f() \x7b\n\x7d\x7d\nexport async function u() \x7b\x7b\nexport async function f() \x7b\nexport async function u() \x7d").filter
            fun fi => fi.name == "u"))
        ((parse_functions "m"
            (remove_functions
              "export async function f() \x7b\n\x7d\x7d\nexport async function u() \x7b\x7b\nexport async function f() \x7b\nexport async function u() \x7d"
              ((parse_functions "m"
                  "export async function f() \x7b\n\x7d\x7d\nexport async function u() \x7b\x7b\nexport async function f() \x7b\nexport async function u() \x7d").filter
                fun fi => fi.name == "u"))).filter
          fun fi => fi.name == "u") ≠
      remove_functions
        "export async function f() \x7b\n\x7d\x7d\nexport async function u() \x7b\x7b\nexport async function f() \x7b\nexport async function u() \x7d"
        ((parse_functions "m"
            "export async function f() \x7b\n\x7d\x7d\nexport async function u() \x7b\x7b\nexport async function f() \x7b\nexport async function u() \x7d").filter
          fun fi => fi.name == "u") := by
  decide

/-- C8 (amended): applying the remover a second time, with spans recomputed
by re-parsing the first output for the same target names, yields output
identical to the first application's whenever that re-parse finds no
definition with a target name — in particular the blank-line collapse is
idempotent; in general, however, removing a span can shift the brace
accounting (a truncated span's header need not be brace-balanced), the
re-parse can then expose a previously hidden definition with a target
name, and the second application removes it, changing the output. -/
theorem c8_second_removal_identity (module content : String) (fns : List FunctionInfo)
    (names : List String)
    (h : (parse_functions module (remove_functions content fns)).filter
        (fun fi => names.contains fi.name) = []) :
    remove_functions (remove_functions content fns)
        ((parse_functions module (remove_functions content fns)).filter
          (fun fi => names.contains fi.name)) =
      remove_functions content fns := by
  rw [h]
  exact remove_functions_nil_twice content fns

/-- C8 witness: the amended statement on a concrete one-function file whose
single function is the removal target. -/
theorem c8_second_removal_identity_witness :
    (parse_functions "m"
        (remove_functions "export async function a() \x7b\x7d"
          ((parse_functions "m" "export async function a() \x7b\x7d").filter
            (fun fi => ["a"].contains fi.name)))).filter
        (fun fi => ["a"].contains fi.name) = [] ∧
      remove_functions
          (remove_functions "export async function a() \x7b\x7d"
            ((parse_functions "m" "export async function a() \x7b\x7d").filter
              (fun fi => ["a"].contains fi.name)))
          ((parse_functions "m"
              (remove_functions "export async function a() \x7b\x7d"
                ((parse_functions "m" "export async function a() \x7b\x7d").filter
                  (fun fi => ["a"].contains fi.name)))).filter
            (fun fi => ["a"].contains fi.name)) =
        remove_functions "export async function a() \x7b\x7d"
          ((parse_functions "m" "export async function a() \x7b\x7d").filter
            (fun fi => ["a"].contains fi.name)) :=
  ⟨rfl,
    c8_second_removal_identity "m" "export async function a() \x7b\x7d"
      ((parse_functions "m" "export async function a() \x7b\x7d").filter
        (fun fi => ["a"].contains fi.name))
      ["a"] rfl⟩

end Grip
